import Mathlib

/-!
Verification of the sctl secret store (main.go) against its specification.

The Go code is shallowly embedded: slices become lists, the store file becomes an
explicit value, external collaborators (the KMS client, `encoding/json`,
`encoding/base64`) become oracle function parameters, and `log.Fatal` / index
out of range panics become `Option`-style failure values. Machine-level details
that the claims do not touch (timestamps, raw bytes) are modelled by `Nat` and
`String`.
-/

namespace Sctl

/-- Embeds the `Secret` struct of main.go (fields `Name`, `Cyphertext`, `Created`).
The `time.Time` creation stamp is modelled as a `Nat`. -/
structure Secret where
  name : String
  cyphertext : String
  created : Nat
deriving DecidableEq, Repr

/-- The Go zero value `Secret\x7b\x7d` written into the vacated slot by the
swap-delete loops of `addSecret` and `rmSecret`. -/
def zeroSecret : Secret := ⟨"", "", 0⟩

/-- Embeds the swap-delete loop shared by `addSecret` and `rmSecret` in main.go:

  for index, element := range secrets ...
    if element.Name == target ...
      secrets[index] = secrets[len(secrets)-1]
      secrets[len(secrets)-1] = Secret\x7b\x7d
      secrets = secrets[:len(secrets)-1]

Go evaluates the range expression once, so the index sequence is fixed up front
(`List.range` of the original length) while the shared backing array `arr` and
the current slice length `l` evolve.  Reading `element` at iteration `index`
sees the current contents of the backing array.  The assignment
`secrets[index] = ...` is bounds-checked against the current length, so when a
matching element sits at `index ≥ l` the Go program panics with index out of
range; that is the `none` result. -/
def rmGo (target : String) : List Nat → List Secret × Nat → Option (List Secret × Nat)
  | [], st => some st
  | i :: rest, (arr, l) =>
    if (arr.getD i zeroSecret).name = target then
      if i < l then
        rmGo target rest
          ((arr.set i (arr.getD (l - 1) zeroSecret)).set (l - 1) zeroSecret, l - 1)
      else none
    else rmGo target rest (arr, l)

/-- Embeds `rmSecret` of main.go as a store-to-store transformation: run the
swap-delete loop over the loaded records and keep the first `l` slots of the
backing array (the truncated slice that `writeSecrets` persists).  `none`
models a Go runtime panic. -/
def rmSecret (secret_name : String) (secrets : List Secret) : Option (List Secret) :=
  (rmGo secret_name (List.range secrets.length) (secrets, secrets.length)).map
    fun st => st.1.take st.2

/-- Embeds `addSecret` of main.go: the same swap-delete loop keyed on
`to_add.Name`, then `secrets = append(secrets, to_add)`. -/
def addSecret (to_add : Secret) (secrets : List Secret) : Option (List Secret) :=
  (rmGo to_add.name (List.range secrets.length) (secrets, secrets.length)).map
    fun st => st.1.take st.2 ++ [to_add]

/-- Modelled external standard-library call `strings.ToUpper`, as a
character-wise upper-casing (it agrees with the Go function on ASCII names). -/
def goToUpper (s : String) : String := String.mk (s.data.map Char.toUpper)

/-- Embeds the `add` command action of main.go at the store level: the record is
built as `Secret\x7bName: strings.ToUpper(secret_name), Cyphertext: encoded, Created: time.Now()\x7d`
and handed to `addSecret`.  The `encoded` string is the base64 of the KMS
ciphertext, an output of the external Crypto Gateway, so it is a parameter. -/
def addAction (secret_name : String) (encoded : String) (now : Nat)
    (store : List Secret) : Option (List Secret) :=
  addSecret ⟨goToUpper secret_name, encoded, now⟩ store

/-- Embeds the `rm` command action of main.go: `rmSecret(strings.ToUpper(c.Args().First()))`. -/
def rmAction (secret_name : String) (store : List Secret) : Option (List Secret) :=
  rmSecret (goToUpper secret_name) store

/-- Outcome of loading the store: `fatal` models `log.Fatal` (diagnostic plus
process exit), `ok` is a successfully loaded record list. -/
inductive ReadResult
  | fatal
  | ok (secrets : List Secret)
deriving DecidableEq, Repr

/-- Embeds `readSecrets` of main.go.  The store file is `none` when
`ioutil.ReadFile(".scuttle.json")` errors (file absent), otherwise `some`
contents.  `unmarshal` is the external `json.Unmarshal` into `[]Secret`,
`none` meaning a parse error, in which case the Go code calls `log.Fatal`. -/
def readSecrets (unmarshal : String → Option (List Secret)) (file : Option String) :
    ReadResult :=
  match file with
  | none => .ok []
  | some contents =>
    match unmarshal contents with
    | none => .fatal
    | some data => .ok data

/-- The record names of a store, in store order. -/
def storeNames (secrets : List Secret) : List String := secrets.map (·.name)

/-- Embeds the body of the `list` action of main.go: collect every `secret.Name`
into `known_keys` and `sort.Strings` it. -/
def listKnownKeys (secrets : List Secret) : List String :=
  (storeNames secrets).mergeSort (· ≤ ·)

/-- Embeds the `list` command end to end: load the store, then print the sorted
names.  `none` models the fatal exit of `readSecrets` on a malformed document. -/
def listCommand (unmarshal : String → Option (List Secret)) (file : Option String) :
    Option (List String) :=
  match readSecrets unmarshal file with
  | .fatal => none
  | .ok secrets => some (listKnownKeys secrets)

/-- A file write request: path, contents and the permission mode handed to
`ioutil.WriteFile`. -/
structure FileWrite where
  path : String
  contents : String
  mode : Nat
deriving DecidableEq, Repr

/-- Embeds `writeSecrets` of main.go: serialize the full store with the external
`json.MarshalIndent` (oracle parameter, its error ignored by the Go code) and
write it to `.scuttle.json` with mode `int(0660)` (octal). -/
def writeSecrets (marshalIndent : List Secret → String) (data : List Secret) : FileWrite :=
  { path := ".scuttle.json", contents := marshalIndent data, mode := 0o660 }

/-- Lexer states of the external `github.com/google/shlex` dependency used by the
`run` action. -/
inductive LexState
  | start
  | inWord
  | escaping
  | escapingQuoted
  | quotingEscaping
  | quoting
  | comment
deriving DecidableEq, Repr

/-- Space runes of the shlex lexer. -/
def isSpaceRune (c : Char) : Bool :=
  c = ' ' || c = '\t' || c = '\r' || c = '\n'

/-- Modelled external dependency `github.com/google/shlex` (the repository only
calls it; its code is not part of this repository).  Faithful to the shlex
tokenizer state machine: words split on spaces, double quotes with backslash
escapes, single quotes without escapes, backslash escapes outside quotes, and
`#` comments running to a newline.  `shlex.Split` collects word tokens and
skips comment tokens; on a lexing error (end of input inside a quote or after
an escape) it returns the words collected so far, dropping the word in
progress; the `run` action ignores the error, so only the word list matters. -/
def shlexScan : List Char → List String → String → LexState → List String
  | [], acc, cur, st =>
    match st with
    | .start => acc
    | .inWord => acc ++ [cur]
    | _ => acc
  | c :: rest, acc, cur, st =>
    match st with
    | .start =>
      if isSpaceRune c then shlexScan rest acc "" .start
      else if c = '"' then shlexScan rest acc "" .quotingEscaping
      else if c = '\'' then shlexScan rest acc "" .quoting
      else if c = '\\' then shlexScan rest acc "" .escaping
      else if c = '#' then shlexScan rest acc "" .comment
      else shlexScan rest acc (String.push "" c) .inWord
    | .inWord =>
      if isSpaceRune c then shlexScan rest (acc ++ [cur]) "" .start
      else if c = '"' then shlexScan rest acc cur .quotingEscaping
      else if c = '\'' then shlexScan rest acc cur .quoting
      else if c = '\\' then shlexScan rest acc cur .escaping
      else shlexScan rest acc (cur.push c) .inWord
    | .escaping => shlexScan rest acc (cur.push c) .inWord
    | .escapingQuoted => shlexScan rest acc (cur.push c) .quotingEscaping
    | .quotingEscaping =>
      if c = '"' then shlexScan rest acc cur .inWord
      else if c = '\\' then shlexScan rest acc cur .escapingQuoted
      else shlexScan rest acc (cur.push c) .quotingEscaping
    | .quoting =>
      if c = '\'' then shlexScan rest acc cur .inWord
      else shlexScan rest acc (cur.push c) .quoting
    | .comment =>
      if c = '\n' then shlexScan rest acc "" .start
      else shlexScan rest acc cur .comment

/-- Modelled external dependency: `shlex.Split`. -/
def shlexSplit (s : String) : List String :=
  shlexScan s.data [] "" .start

/-- Embeds the argv construction of the `run` action in main.go:

  cmd := exec.Command(c.Args().First())
  cmd.Args, _ = shlex.Split(strings.Join(c.Args(), ", "))

The argument vector handed to the child process is `cmd.Args`, i.e. the shlex
split of the comma-space join of all positional arguments (COMMAND included). -/
def runArgv (args : List String) : List String :=
  shlexSplit (String.intercalate ", " args)

/-- Embeds the child environment construction of the `run` action in main.go.
`cmd.Env` starts from `os.Environ()` (`baseEnv`); for each stored secret the
code base64-decodes the cyphertext and calls the KMS decrypt, ignoring both
errors, and always appends `fmt.Sprintf("%s=%s", secret.Name, cypher)`.

External collaborators as oracles: `decode` models
`b64.StdEncoding.DecodeString`, whose Go value component (used regardless of
the ignored error flag) may be a partial decode; `decrypt` models
`decryptSymmetric`, which returns a nil plaintext exactly when the KMS call
fails (`none`), and `fmt.Sprintf` renders a nil byte slice as the empty
string. -/
def runEnv (decode : String → String × Bool) (decrypt : String → Option String)
    (baseEnv : List String) (secrets : List Secret) : List String :=
  secrets.foldl
    (fun env secret =>
      let decoded := (decode secret.cyphertext).1
      let cypher := (decrypt decoded).getD ""
      env ++ [secret.name ++ "=" ++ cypher])
    baseEnv

/-- Outcome of `cmd.Run()` in the `run` action: the child was started and
exited with the given status code, or it could not be started at all. -/
inductive ChildOutcome
  | exited (code : Nat)
  | launchFailed
deriving DecidableEq, Repr

/-- Embeds the exit-status plumbing of the `run` action in main.go.
`cmd.Run()` returns nil exactly when the child started and exited 0; the
action then returns nil and the process exits 0.  On any non-nil error (child
exited non-zero, or the command could not be started) the action calls
`log.Fatal(err)`, which prints the diagnostic and exits with status 1. -/
def sctlRunExit : ChildOutcome → Nat
  | .exited 0 => 0
  | .exited (_ + 1) => 1
  | .launchFailed => 1

/-! Lemmas about the swap-delete loop. -/

lemma rmGo_append (target : String) (xs ys : List Nat) (st : List Secret × Nat) :
    rmGo target (xs ++ ys) st = (rmGo target xs st).bind (rmGo target ys) := by
  induction xs generalizing st with
  | nil => simp [rmGo]
  | cons i rest ih =>
    obtain ⟨arr, l⟩ := st
    simp only [List.cons_append, rmGo, List.append_eq]
    by_cases hname : (arr.getD i zeroSecret).name = target
    · rw [if_pos hname, if_pos hname]
      by_cases hil : i < l
      · rw [if_pos hil, if_pos hil, ih]
      · rw [if_neg hil, if_neg hil, Option.none_bind]
    · rw [if_neg hname, if_neg hname, ih]

lemma rmGo_nomatch (target : String) (idxs : List Nat) (arr : List Secret) (l : Nat)
    (h : ∀ i ∈ idxs, (arr.getD i zeroSecret).name ≠ target) :
    rmGo target idxs (arr, l) = some (arr, l) := by
  induction idxs with
  | nil => rfl
  | cons i rest ih =>
    have h1 : ¬ (arr.getD i zeroSecret).name = target := h i (List.mem_cons_self i rest)
    simp only [rmGo, if_neg h1]
    exact ih fun j hj => h j (List.mem_cons_of_mem _ hj)

lemma set_append_length (pre l : List Secret) (v : Secret) :
    (pre ++ l).set pre.length v = pre ++ l.set 0 v := by
  induction pre with
  | nil => simp
  | cons a pre ih => simp [ih]

lemma getD_append_nth (pre l : List Secret) (k : Nat) :
    (pre ++ l).getD (pre.length + k) zeroSecret = l.getD k zeroSecret := by
  rw [List.getD_append_right _ _ _ _ (Nat.le_add_right _ _)]
  simp

lemma rmSecret_nomatch (target : String) (store : List Secret)
    (h : ∀ r ∈ store, r.name ≠ target) : rmSecret target store = some store := by
  unfold rmSecret
  rw [rmGo_nomatch]
  · simp
  · intro i hi
    rw [List.mem_range] at hi
    rw [List.getD_eq_getElem _ _ hi]
    exact h _ (List.getElem_mem hi)

lemma rmSecret_match_last (target : String) (pre : List Secret) (m : Secret)
    (hm : m.name = target) (hpre : ∀ r ∈ pre, r.name ≠ target) :
    rmSecret target (pre ++ [m]) = some pre := by
  have hget : (pre ++ [m]).getD pre.length zeroSecret = m := by
    have h0 := getD_append_nth pre [m] 0
    rw [Nat.add_zero] at h0
    rw [h0]
    rfl
  have hpref : ∀ i ∈ List.range pre.length,
      ((pre ++ [m]).getD i zeroSecret).name ≠ target := by
    intro i hi
    rw [List.mem_range] at hi
    rw [List.getD_append _ _ _ _ (by simpa using hi)]
    rw [List.getD_eq_getElem _ _ hi]
    exact hpre _ (List.getElem_mem hi)
  unfold rmSecret
  have h1 : (pre ++ [m]).length = pre.length + 1 := by simp
  rw [h1, List.range_succ, rmGo_append, rmGo_nomatch target _ _ _ hpref]
  have hstep : rmGo target [pre.length] (pre ++ [m], pre.length + 1) =
      some (pre ++ [zeroSecret], pre.length) := by
    simp only [rmGo, hget, hm, if_pos rfl, Nat.lt_succ_self, if_pos, Nat.add_sub_cancel]
    simp [set_append_length]
  rw [Option.some_bind, hstep]
  simp [List.take_left]

lemma rmSecret_match_mid (target : String) (pre mid : List Secret) (m z : Secret)
    (hm : m.name = target) (hpre : ∀ r ∈ pre, r.name ≠ target)
    (hmid : ∀ r ∈ mid, r.name ≠ target) (ht : target ≠ "") :
    rmSecret target (pre ++ (m :: (mid ++ [z]))) = some (pre ++ (z :: mid)) := by
  have hzn : zeroSecret.name ≠ target := fun h => ht h.symm
  have hlen : (pre ++ (m :: (mid ++ [z]))).length = pre.length + (mid.length + 2) := by
    simp
  have hgetm : (pre ++ (m :: (mid ++ [z]))).getD pre.length zeroSecret = m := by
    have h0 := getD_append_nth pre (m :: (mid ++ [z])) 0
    rw [Nat.add_zero] at h0
    rw [h0]
    rfl
  have hgetz : (pre ++ (m :: (mid ++ [z]))).getD (pre.length + (mid.length + 1)) zeroSecret
      = z := by
    rw [getD_append_nth pre (m :: (mid ++ [z])) (mid.length + 1)]
    show (mid ++ [z]).getD mid.length zeroSecret = z
    have h1 := getD_append_nth mid [z] 0
    rw [Nat.add_zero] at h1
    rw [h1]
    rfl
  have hset : ((pre ++ (m :: (mid ++ [z]))).set pre.length z).set
      (pre.length + (mid.length + 1)) zeroSecret = (pre ++ (z :: mid)) ++ [zeroSecret] := by
    rw [set_append_length]
    have hset0 : (m :: (mid ++ [z])).set 0 z = z :: (mid ++ [z]) := rfl
    rw [hset0]
    have hassoc : pre ++ (z :: (mid ++ [z])) = (pre ++ (z :: mid)) ++ [z] := by simp
    rw [hassoc]
    have hl2 : (pre ++ (z :: mid)).length = pre.length + (mid.length + 1) := by simp
    rw [← hl2, set_append_length]
    rfl
  have hpref : ∀ i ∈ List.range pre.length,
      ((pre ++ (m :: (mid ++ [z]))).getD i zeroSecret).name ≠ target := by
    intro i hi
    rw [List.mem_range] at hi
    rw [List.getD_append _ _ _ _ hi, List.getD_eq_getElem _ _ hi]
    exact hpre _ (List.getElem_mem hi)
  have hsuf : ∀ i ∈ (List.range (mid.length + 1)).map ((pre.length + ·) ∘ (· + 1)),
      (((pre ++ (z :: mid)) ++ [zeroSecret]).getD i zeroSecret).name ≠ target := by
    intro i hi
    rw [List.mem_map] at hi
    obtain ⟨x, hx, rfl⟩ := hi
    rw [List.mem_range] at hx
    have hre : (pre ++ (z :: mid)) ++ [zeroSecret] = pre ++ (z :: (mid ++ [zeroSecret])) := by
      simp
    rw [hre]
    show ((pre ++ (z :: (mid ++ [zeroSecret]))).getD (pre.length + (x + 1)) zeroSecret).name
      ≠ target
    rw [getD_append_nth pre (z :: (mid ++ [zeroSecret])) (x + 1)]
    show ((mid ++ [zeroSecret]).getD x zeroSecret).name ≠ target
    rcases Nat.lt_or_ge x mid.length with hlt | hge
    · rw [List.getD_append _ _ _ _ hlt, List.getD_eq_getElem _ _ hlt]
      exact hmid _ (List.getElem_mem hlt)
    · have hxe : x = mid.length := by omega
      subst hxe
      have h1 := getD_append_nth mid [zeroSecret] 0
      rw [Nat.add_zero] at h1
      rw [h1]
      exact hzn
  unfold rmSecret
  rw [hlen, List.range_add, rmGo_append, rmGo_nomatch target _ _ _ hpref, Option.some_bind]
  rw [List.range_succ_eq_map]
  simp only [List.map_cons, Nat.add_zero, List.map_map]
  simp only [rmGo]
  rw [hgetm, if_pos hm]
  rw [if_pos (by omega : pre.length < pre.length + (mid.length + 2))]
  have harith : pre.length + (mid.length + 2) - 1 = pre.length + (mid.length + 1) := by
    omega
  rw [harith, hgetz, hset]
  rw [rmGo_nomatch target _ _ _ hsuf]
  have htake : (pre ++ (z :: (mid ++ [zeroSecret]))).take (pre.length + (mid.length + 1))
      = pre ++ (z :: mid) := by
    have hre2 : pre ++ (z :: (mid ++ [zeroSecret])) = (pre ++ (z :: mid)) ++ [zeroSecret] := by
      simp
    rw [hre2]
    exact List.take_left' (by simp)
  simp [htake]

lemma addSecret_eq_rm (to_add : Secret) (store : List Secret) :
    addSecret to_add store = (rmSecret to_add.name store).map (· ++ [to_add]) := by
  unfold addSecret rmSecret
  cases rmGo to_add.name (List.range store.length) (store, store.length) <;> rfl

/-- Spec-side store invariant (section 3 of the specification): record names are
unique across the sequence and no record has an empty name. -/
def WFStore (store : List Secret) : Prop :=
  (storeNames store).Nodup ∧ ∀ r ∈ store, r.name ≠ ""

instance (store : List Secret) : Decidable (WFStore store) := by
  unfold WFStore
  infer_instance

/-- Spec-side description of `Remove` (section 4.1): drop every record whose
name matches the target. -/
def specRemoveAll (target : String) (store : List Secret) : List Secret :=
  store.filter fun r => !(r.name == target)

lemma rmSecret_WF (target : String) (store : List Secret)
    (hnodup : (storeNames store).Nodup) (hne : ∀ r ∈ store, r.name ≠ "") :
    ∃ s', rmSecret target store = some s' ∧
      List.Perm s' (specRemoveAll target store) ∧
      (∀ r ∈ s', r.name ≠ target) := by
  by_cases hmem : ∃ r ∈ store, r.name = target
  · obtain ⟨mrec, hmm, hname⟩ := hmem
    obtain ⟨s, t, rfl⟩ := List.append_of_mem hmm
    have ht : target ≠ "" := by
      rw [← hname]
      exact hne mrec (by simp)
    have hnames : storeNames (s ++ mrec :: t) = storeNames s ++ mrec.name :: storeNames t := by
      simp [storeNames]
    rw [hnames] at hnodup
    have hdisj := List.disjoint_of_nodup_append hnodup
    have hs : ∀ r ∈ s, r.name ≠ target := by
      intro r hr heq
      exact (List.disjoint_left.mp hdisj
        (by exact List.mem_map_of_mem _ hr)) (by simp [hname ▸ heq])
    have htail : ∀ r ∈ t, r.name ≠ target := by
      have hcons : (mrec.name :: storeNames t).Nodup := (List.nodup_append.mp hnodup).2.1
      intro r hr heq
      exact (List.nodup_cons.mp hcons).1
        (by rw [hname, ← heq]; exact List.mem_map_of_mem _ hr)
    have hfil : specRemoveAll target (s ++ mrec :: t) = s ++ t := by
      unfold specRemoveAll
      rw [List.filter_append, List.filter_cons]
      have hmf : (!(mrec.name == target)) = false := by simp [hname]
      rw [hmf]
      simp only [Bool.false_eq_true, if_false]
      rw [List.filter_eq_self.mpr (fun a ha => by simp [hs a ha]),
        List.filter_eq_self.mpr (fun a ha => by simp [htail a ha])]
    rcases List.eq_nil_or_concat t with rfl | ⟨mid, z, rfl⟩
    · refine ⟨s, rmSecret_match_last target s mrec hname hs, ?_, ?_⟩
      · rw [hfil]
        simp
      · exact hs
    · rw [List.concat_eq_append] at hfil htail ⊢
      have hmid : ∀ r ∈ mid, r.name ≠ target := fun r hr => htail r (by simp [hr])
      have hzt : z.name ≠ target := htail z (by simp)
      refine ⟨s ++ (z :: mid), ?_, ?_, ?_⟩
      · exact rmSecret_match_mid target s mid mrec z hname hs hmid ht
      · rw [hfil]
        refine List.Perm.append_left s ?_
        have hp : List.Perm (mid ++ (z :: ([] : List Secret))) (z :: (mid ++ [])) :=
          List.perm_middle
        simp only [List.append_nil] at hp
        exact hp.symm
      · intro r hr
        rcases List.mem_append.mp hr with h | h
        · exact hs r h
        · rcases List.mem_cons.mp h with rfl | h
          · exact hzt
          · exact hmid r h
  · push_neg at hmem
    refine ⟨store, rmSecret_nomatch target store hmem, ?_, hmem⟩
    unfold specRemoveAll
    rw [List.filter_eq_self.mpr (fun a ha => by simp [hmem a ha])]

/-! Claim theorems. -/

/-- Claim C1, counterexample: a child that exits with status 2 makes sctl exit
with status 1 (the fixed exit code of log.Fatal), not 2 — the exit code is not
propagated. -/
theorem C1_counterexample :
    sctlRunExit (.exited 2) = 1 ∧ (1 : Nat) ≠ 2 := by
  exact ⟨rfl, by decide⟩

/-- Claim C1, amended: sctl exits 0 exactly when the child exited 0; any
non-zero child exit and any launch failure make sctl exit 1 (non-zero, after a
fatal diagnostic), never 0 — but the specific child status is collapsed to 1. -/
theorem C1_exit_amended :
    sctlRunExit (.exited 0) = 0 ∧ (∀ n : Nat, sctlRunExit (.exited (n + 1)) = 1) ∧
    sctlRunExit .launchFailed = 1 := by
  exact ⟨rfl, fun _ => rfl, rfl⟩

/-- Claim C2, code-bug witness: for COMMAND `echo` with ARGS `a b`, the argv
handed to the child is `echo,` `a,` `b` — the join-then-shlex-split round trip
appends a comma to every argument except the last — instead of the unmodified
`echo` `a` `b` the claim and the spec describe. -/
theorem C2_run_argv_mangled :
    runArgv ["echo", "a", "b"] = ["echo,", "a,", "b"] ∧
    runArgv ["echo", "a", "b"] ≠ ["echo", "a", "b"] := by
  constructor <;> decide

/-- Claim C3, counterexample: a single stored secret named FOO whose decryption
fails (the decrypt oracle returns none) still produces the child environment
entry `FOO=` — the secret is not skipped; an entry for its name is passed with
an empty value. -/
theorem C3_counterexample :
    runEnv (fun c => (c, true)) (fun _ => none) [] [⟨"FOO", "xx", 0⟩] = ["FOO="] ∧
    "FOO" ++ "=" ++ "" ∈ runEnv (fun c => (c, true)) (fun _ => none) [] [⟨"FOO", "xx", 0⟩] := by
  constructor <;> decide

/-- Claim C3, amended: decoding and decryption failures are swallowed but the
secret is not skipped: the child environment is always the base environment
followed by exactly one `NAME=value` entry per stored secret in store order,
where a failed decryption yields the empty-string rendering of the nil
plaintext; the command is then launched unconditionally. -/
theorem C3_env_amended (decode : String → String × Bool) (decrypt : String → Option String)
    (baseEnv : List String) (secrets : List Secret) :
    runEnv decode decrypt baseEnv secrets =
      baseEnv ++ secrets.map
        (fun s => s.name ++ "=" ++ ((decrypt (decode s.cyphertext).1).getD "")) := by
  induction secrets generalizing baseEnv with
  | nil => simp [runEnv]
  | cons s rest ih =>
    show runEnv decode decrypt
      (baseEnv ++ [s.name ++ "=" ++ ((decrypt (decode s.cyphertext).1).getD "")]) rest = _
    rw [ih]
    simp

/-- Claim C4, counterexample: the mode passed to WriteFile is octal 0660, whose
group permission bits are rw (6), not clear — the document is not written with
owner-only access. -/
theorem C4_counterexample :
    (writeSecrets (fun _ => "") []).mode = 0o660 ∧ ((0o660 : Nat) / 8) % 8 ≠ 0 := by
  constructor <;> decide

/-- Claim C4, amended: every save writes the document with permission mode 0660:
owner read/write and group read/write are set and world bits are clear — not
the owner-only 0600 the spec describes. -/
theorem C4_mode_amended (marshalIndent : List Secret → String) (data : List Secret) :
    (writeSecrets marshalIndent data).mode = 0o660 ∧
    ((writeSecrets marshalIndent data).mode / 64) % 8 = 6 ∧
    ((writeSecrets marshalIndent data).mode / 8) % 8 = 6 ∧
    (writeSecrets marshalIndent data).mode % 8 = 0 := by
  refine ⟨rfl, ?_, ?_, ?_⟩
  · show (0o660 : Nat) / 64 % 8 = 6
    decide
  · show (0o660 : Nat) / 8 % 8 = 6
    decide
  · show (0o660 : Nat) % 8 = 0
    decide

/-- Claim C7: a store document that is present but fails to unmarshal makes the
loader exit fatally, and the list command therefore never returns an empty or
partial name list. -/
theorem C7_corrupt_fatal (unmarshal : String → Option (List Secret)) (contents : String)
    (h : unmarshal contents = none) :
    readSecrets unmarshal (some contents) = .fatal ∧
    listCommand unmarshal (some contents) = none := by
  constructor
  · simp [readSecrets, h]
  · simp [listCommand, readSecrets, h]

/-- Claim C7, witness at a concrete corrupt document and failing parser. -/
theorem C7_corrupt_fatal_witness :
    readSecrets (fun _ => (none : Option (List Secret))) (some "]junk[") = .fatal ∧
    listCommand (fun _ => (none : Option (List Secret))) (some "]junk[") = none :=
  C7_corrupt_fatal (fun _ => none) "]junk[" rfl

/-- Claim C8: an absent store document loads as the empty store without error,
and the list command returns the empty name sequence. -/
theorem C8_absent_empty (unmarshal : String → Option (List Secret)) :
    readSecrets unmarshal none = .ok [] ∧ listCommand unmarshal none = some [] := by
  refine ⟨rfl, ?_⟩
  simp [listCommand, readSecrets, listKnownKeys, storeNames, List.mergeSort_nil]

/-- Claim C5, counterexample: on a store holding two records both named A, one
pass of the remove loop leaves the second A-record in place — Remove does not
delete all matching records when names are duplicated. -/
theorem C5_counterexample :
    rmSecret "A" [⟨"A", "c1", 0⟩, ⟨"A", "c2", 0⟩] = some [⟨"A", "c2", 0⟩] ∧
    (⟨"A", "c2", 0⟩ : Secret).name = "A" := by
  constructor <;> decide

/-- Claim C5, amended: on a store satisfying the documented invariant (unique,
non-empty names) Remove succeeds, the resulting store holds no record whose name
matches the target, and when no record matches, Remove is a no-op returning the
store unchanged; with duplicate names (invariant broken) a matching record can
survive the single swap-delete pass. -/
theorem C5_remove_amended (target : String) (store : List Secret) (h : WFStore store) :
    ∃ s', rmSecret target store = some s' ∧ (∀ r ∈ s', r.name ≠ target) ∧
      ((∀ r ∈ store, r.name ≠ target) → s' = store) := by
  obtain ⟨s', h1, _, h3⟩ := rmSecret_WF target store h.1 h.2
  refine ⟨s', h1, h3, fun hnm => ?_⟩
  have h0 := rmSecret_nomatch target store hnm
  rw [h1] at h0
  exact Option.some_inj.mp h0

/-- Claim C5, witness on a concrete two-record store. -/
theorem C5_remove_amended_witness :
    ∃ s', rmSecret "A" [⟨"A", "c1", 0⟩, ⟨"B", "c2", 0⟩] = some s' ∧
      (∀ r ∈ s', r.name ≠ "A") ∧
      ((∀ r ∈ ([⟨"A", "c1", 0⟩, ⟨"B", "c2", 0⟩] : List Secret), r.name ≠ "A") →
        s' = [⟨"A", "c1", 0⟩, ⟨"B", "c2", 0⟩]) :=
  C5_remove_amended "A" [⟨"A", "c1", 0⟩, ⟨"B", "c2", 0⟩] (by decide)

/-- Claim C6: starting from any store satisfying the documented invariant,
adding name with value ciphertext c1 and then again with ciphertext c2 leaves
exactly one record under the upper-cased name, holding c2; the names stay
unique after each of the two commits, and the sorted list output mentions the
name exactly once. -/
theorem C6_add_unique (store : List Secret) (nm c1 c2 : String) (t1 t2 : Nat)
    (h : WFStore store) :
    ∃ s1 s2, addAction nm c1 t1 store = some s1 ∧ addAction nm c2 t2 s1 = some s2 ∧
      s2.filter (fun r => r.name == goToUpper nm) = [⟨goToUpper nm, c2, t2⟩] ∧
      (storeNames s1).Nodup ∧ (storeNames s2).Nodup ∧
      (listKnownKeys s2).count (goToUpper nm) = 1 := by
  obtain ⟨s0, hrm, hperm, hnm⟩ := rmSecret_WF (goToUpper nm) store h.1 h.2
  have hnin : goToUpper nm ∉ storeNames s0 := by
    intro hmem
    obtain ⟨r, hr, hrn⟩ := List.mem_map.mp hmem
    exact hnm r hr hrn
  have hs0nd : (storeNames s0).Nodup := by
    have hsub : List.Sublist (specRemoveAll (goToUpper nm) store) store :=
      List.filter_sublist store
    have hnd : (storeNames (specRemoveAll (goToUpper nm) store)).Nodup :=
      List.Nodup.sublist (hsub.map Secret.name) h.1
    exact ((hperm.map Secret.name).nodup_iff).mpr hnd
  have hndapp : ∀ c : String, ∀ t : Nat,
      (storeNames (s0 ++ [⟨goToUpper nm, c, t⟩])).Nodup := by
    intro c t
    have hn : storeNames (s0 ++ [⟨goToUpper nm, c, t⟩]) =
        storeNames s0 ++ [goToUpper nm] := by
      simp [storeNames]
    rw [hn]
    refine List.Nodup.append hs0nd (List.nodup_singleton _) ?_
    intro x hx hx2
    rw [List.mem_singleton.mp hx2] at hx
    exact hnin hx
  have hadd1 : addAction nm c1 t1 store = some (s0 ++ [⟨goToUpper nm, c1, t1⟩]) := by
    unfold addAction
    rw [addSecret_eq_rm]
    show (rmSecret (goToUpper nm) store).map (· ++ [⟨goToUpper nm, c1, t1⟩]) = _
    rw [hrm]
    rfl
  have hrm2 : rmSecret (goToUpper nm) (s0 ++ [⟨goToUpper nm, c1, t1⟩]) = some s0 :=
    rmSecret_match_last _ s0 _ rfl hnm
  have hadd2 : addAction nm c2 t2 (s0 ++ [⟨goToUpper nm, c1, t1⟩]) =
      some (s0 ++ [⟨goToUpper nm, c2, t2⟩]) := by
    unfold addAction
    rw [addSecret_eq_rm]
    show (rmSecret (goToUpper nm) (s0 ++ [⟨goToUpper nm, c1, t1⟩])).map
      (· ++ [⟨goToUpper nm, c2, t2⟩]) = _
    rw [hrm2]
    rfl
  have hfil2 : (s0 ++ [(⟨goToUpper nm, c2, t2⟩ : Secret)]).filter
      (fun r => r.name == goToUpper nm) = [⟨goToUpper nm, c2, t2⟩] := by
    rw [List.filter_append]
    have hnil : s0.filter (fun r => r.name == goToUpper nm) = [] :=
      List.filter_eq_nil_iff.mpr (fun a ha => by simp [hnm a ha])
    rw [hnil]
    simp
  have hcnt : (listKnownKeys (s0 ++ [⟨goToUpper nm, c2, t2⟩])).count (goToUpper nm)
      = 1 := by
    unfold listKnownKeys
    rw [(List.mergeSort_perm _ _).count_eq]
    have hn2 : storeNames (s0 ++ [⟨goToUpper nm, c2, t2⟩]) =
        storeNames s0 ++ [goToUpper nm] := by
      simp [storeNames]
    rw [hn2, List.count_append, List.count_eq_zero.mpr hnin]
    simp
  exact ⟨_, _, hadd1, hadd2, hfil2, hndapp c1 t1, hndapp c2 t2, hcnt⟩

/-- Claim C6, witness on a concrete one-record store. -/
theorem C6_add_unique_witness :
    ∃ s1 s2, addAction "foo" "c1" 1 [⟨"BAR", "x", 0⟩] = some s1 ∧
      addAction "foo" "c2" 2 s1 = some s2 ∧
      s2.filter (fun r => r.name == goToUpper "foo") = [⟨goToUpper "foo", "c2", 2⟩] ∧
      (storeNames s1).Nodup ∧ (storeNames s2).Nodup ∧
      (listKnownKeys s2).count (goToUpper "foo") = 1 :=
  C6_add_unique [⟨"BAR", "x", 0⟩] "foo" "c1" "c2" 1 2 (by decide)

/-- Claim C9, counterexample: on a store with two records named A, the first
Remove leaves one A-record and a second Remove deletes it, so the states after
one and after two calls differ — Remove is not idempotent on arbitrary stores. -/
theorem C9_counterexample :
    rmSecret "A" [⟨"A", "c1", 0⟩, ⟨"A", "c2", 0⟩] = some [⟨"A", "c2", 0⟩] ∧
    rmSecret "A" [⟨"A", "c2", 0⟩] = some [] ∧
    ([⟨"A", "c2", 0⟩] : List Secret) ≠ [] := by
  refine ⟨by decide, by decide, by decide⟩

/-- Claim C9, amended: on every store satisfying the documented invariant
(unique, non-empty names) Remove is idempotent: the second application returns
the first result unchanged. -/
theorem C9_remove_idem_amended (target : String) (store : List Secret)
    (h : WFStore store) :
    ∃ s', rmSecret target store = some s' ∧ rmSecret target s' = some s' := by
  obtain ⟨s', h1, _, h3⟩ := rmSecret_WF target store h.1 h.2
  exact ⟨s', h1, rmSecret_nomatch target s' h3⟩

/-- Claim C9, witness on a concrete store. -/
theorem C9_remove_idem_amended_witness :
    ∃ s', rmSecret "B" [⟨"B", "v", 3⟩, ⟨"C", "w", 4⟩] = some s' ∧
      rmSecret "B" s' = some s' :=
  C9_remove_idem_amended "B" [⟨"B", "v", 3⟩, ⟨"C", "w", 4⟩] (by decide)

/-- Claim C10: on a store with unique (and, per the data-model invariant,
non-empty) names, Remove keeps every record whose name differs from the target
with all fields unchanged, and Upsert keeps every record whose name differs
from the new record; in both cases the survivors are exactly the non-matching
records up to order (the last record is relocated into the removed slot), plus
the appended record for Upsert. -/
theorem C10_frame (target : String) (to_add : Secret) (store : List Secret)
    (h : WFStore store) :
    (∃ s', rmSecret target store = some s' ∧
       List.Perm s' (specRemoveAll target store) ∧
       ∀ r ∈ store, r.name ≠ target → r ∈ s') ∧
    (∃ s2, addSecret to_add store = some s2 ∧
       List.Perm s2 (specRemoveAll to_add.name store ++ [to_add]) ∧
       ∀ r ∈ store, r.name ≠ to_add.name → r ∈ s2) := by
  obtain ⟨s', h1, h2, _⟩ := rmSecret_WF target store h.1 h.2
  obtain ⟨sa, g1, g2, _⟩ := rmSecret_WF to_add.name store h.1 h.2
  constructor
  · refine ⟨s', h1, h2, fun r hr hne => ?_⟩
    apply h2.mem_iff.mpr
    unfold specRemoveAll
    rw [List.mem_filter]
    exact ⟨hr, by simp [hne]⟩
  · refine ⟨sa ++ [to_add], ?_, g2.append_right [to_add], fun r hr hne => ?_⟩
    · rw [addSecret_eq_rm, g1]
      rfl
    · apply List.mem_append_left
      apply g2.mem_iff.mpr
      unfold specRemoveAll
      rw [List.mem_filter]
      exact ⟨hr, by simp [hne]⟩

/-- Claim C10, witness on a concrete two-record store. -/
theorem C10_frame_witness :
    (∃ s', rmSecret "A" [⟨"A", "x", 0⟩, ⟨"C", "y", 0⟩] = some s' ∧
       List.Perm s' (specRemoveAll "A" [⟨"A", "x", 0⟩, ⟨"C", "y", 0⟩]) ∧
       ∀ r ∈ ([⟨"A", "x", 0⟩, ⟨"C", "y", 0⟩] : List Secret), r.name ≠ "A" → r ∈ s') ∧
    (∃ s2, addSecret ⟨"B", "c", 1⟩ [⟨"A", "x", 0⟩, ⟨"C", "y", 0⟩] = some s2 ∧
       List.Perm s2 (specRemoveAll (Secret.name ⟨"B", "c", 1⟩)
         [⟨"A", "x", 0⟩, ⟨"C", "y", 0⟩] ++ [⟨"B", "c", 1⟩]) ∧
       ∀ r ∈ ([⟨"A", "x", 0⟩, ⟨"C", "y", 0⟩] : List Secret),
         r.name ≠ Secret.name ⟨"B", "c", 1⟩ → r ∈ s2) :=
  C10_frame "A" ⟨"B", "c", 1⟩ [⟨"A", "x", 0⟩, ⟨"C", "y", 0⟩] (by decide)

end Sctl
